import Mathlib

/-!
Shallow embedding of the Martini sessions middleware (package `sessions`,
file `src/sessions.go`).

The adapter is a per-request object holding a map `ss` of lazily loaded
named sessions, a map `written` of dirty flags, a reference to the store,
and a logger.  Go maps from strings are embedded as association lists with
first-match lookup; inserting a key replaces any previous binding.  The
dirty map `written` only ever receives `true`, so it is embedded as the
list of names that were marked (membership = dirtiness).  The logger's
effect is embedded as the list of formatted messages printed so far.

The external collaborators (the gorilla session store and session handle)
are not part of the repository; they are modelled from the spec where
needed, each with a doc comment saying so.
-/

/-- Go `interface\x7b\x7d` values as they occur through this adapter:
ordinary values (embedded as strings) and flash lists (`[]interface\x7b\x7d`). -/
inductive GoValue where
  | str : String → GoValue
  | vlist : List GoValue → GoValue

/-- Association list embedding a Go `map[string]v`. -/
abbrev SMap (α : Type) := List (String × α)

/-- Map lookup: Go `m[k]` (as an `Option`, `none` embedding the zero value `nil`). -/
def alookup {α : Type} : SMap α → String → Option α
  | [], _ => none
  | (k', v) :: rest, k => if k' = k then some v else alookup rest k

/-- Map update: Go `m[k] = v` (replaces any previous binding of `k`). -/
def ainsert {α : Type} (m : SMap α) (k : String) (v : α) : SMap α :=
  (k, v) :: m.filter (fun p => p.1 != k)

/-- Map deletion: Go `delete(m, k)`. -/
def aerase {α : Type} (m : SMap α) (k : String) : SMap α :=
  m.filter (fun p => p.1 != k)

/-- Source `Options` struct: cookie configuration for a session
(fields `Path`, `Domain`, `MaxAge`, `Secure`, `HttpOnly`). -/
structure Options where
  Path : String
  Domain : String
  MaxAge : Int
  Secure : Bool
  HttpOnly : Bool
deriving DecidableEq, Repr

/-- Modelled from the spec: the external store's own options structure
(`gorilla/sessions.Options`), the target of the field-by-field copy in
`session.Options`.  Same five fields as the adapter's `Options`. -/
structure GOptions where
  Path : String
  Domain : String
  MaxAge : Int
  Secure : Bool
  HttpOnly : Bool
deriving DecidableEq, Repr

/-- Modelled from the spec: the session handle owned by the external store
(`gorilla/sessions.Session`): a key to value mapping `Values` plus settable
cookie options. -/
structure GSession where
  Values : SMap GoValue
  Options : Option GOptions

/-- The default flash key `"_flash"` used when no explicit key is given. -/
def flashesKey : String := "_flash"

/-- Modelled from the spec: the store session handle's `AddFlash`: appends
`value` to the flash list stored in `Values` under the (optional) flash key. -/
def GSession.AddFlash (sess : GSession) (value : GoValue) (vars : Option String) : GSession :=
  let key := vars.getD flashesKey
  let flashes :=
    match alookup sess.Values key with
    | some (GoValue.vlist l) => l
    | some _ => []
    | none => []
  { sess with Values := ainsert sess.Values key (GoValue.vlist (flashes ++ [value])) }

/-- Modelled from the spec: the store session handle's `Flashes`: reads and
deletes the flash list stored in `Values` under the (optional) flash key,
returning the read list together with the updated handle. -/
def GSession.Flashes (sess : GSession) (vars : Option String) : List GoValue × GSession :=
  let key := vars.getD flashesKey
  match alookup sess.Values key with
  | some v =>
      let flashes := match v with | GoValue.vlist l => l | _ => []
      (flashes, { sess with Values := aerase sess.Values key })
  | none => ([], sess)

/-- Modelled from the spec: the external `Store.Get(request, name)` call.
The request is fixed for the lifetime of one adapter, so the store is a
function of the session name, returning a session handle (load or
initialize: a handle is always returned, possibly fresh/empty) together
with an optional error. -/
abbrev StoreFn := String → GSession × Option String

/-- Source `errorFormat` constant applied by `check`:
`"[sessions] ERROR! %s\n"`. -/
def errorFormat (msg : String) : String := "[sessions] ERROR! " ++ msg ++ "\n"

/-- Source `check(err, l)`: if the error is non-nil, print it with
`errorFormat`.  The logger is embedded as the list of printed messages. -/
def check (err : Option String) (log : List String) : List String :=
  match err with
  | some e => log ++ [errorFormat e]
  | none => log

/-- Source `session` struct: the per-request adapter state. -/
structure session where
  ss : SMap GSession
  written : List String
  store : StoreFn
  log : List String

/-- Fresh adapter as built by the `Sessions` middleware:
`ss` and `written` empty, bound to the given store. -/
def initSession (store : StoreFn) : session :=
  { ss := [], written := [], store := store, log := [] }

/-- Source `session.Session(name)`: lazy loader.  If `name` is not yet in
`ss`, fetch it from the store, record it in `ss` and `check` the error;
return the (now cached) session handle. -/
def session.Session (s : session) (name : String) : GSession × session :=
  match alookup s.ss name with
  | some sess => (sess, s)
  | none =>
      let res := s.store name
      (res.1, { s with ss := ainsert s.ss name res.1, log := check res.2 s.log })

/-- Embedding of a Go write through the `*sessions.Session` pointer held in
`ss`: store the updated handle back under `name`. -/
def session.setSess (s : session) (name : String) (sess : GSession) : session :=
  { s with ss := ainsert s.ss name sess }

/-- Source `session.Get(name, key)`: `s.Session(name).Values[key]`.
Returns the value together with the post-lazy-load state. -/
def session.Get (s : session) (name key : String) : Option GoValue × session :=
  let t := s.Session name
  (alookup t.1.Values key, t.2)

/-- Source `session.Set(name, key, val)`: write the value into the loaded
session's `Values` and mark `name` written. -/
def session.Set (s : session) (name key : String) (val : GoValue) : session :=
  let t := s.Session name
  let s2 := session.setSess t.2 name { t.1 with Values := ainsert t.1.Values key val }
  { s2 with written := name :: s2.written }

/-- Source `session.Delete(name, key)`: delete the key from the loaded
session's `Values` and mark `name` written. -/
def session.Delete (s : session) (name key : String) : session :=
  let t := s.Session name
  let s2 := session.setSess t.2 name { t.1 with Values := aerase t.1.Values key }
  { s2 with written := name :: s2.written }

/-- Source `session.Clear(name)`: delete every key currently in the loaded
session's `Values`, each through `session.Delete`. -/
def session.Clear (s : session) (name : String) : session :=
  let t := s.Session name
  (t.1.Values.map Prod.fst).foldl (fun acc key => session.Delete acc name key) t.2

/-- Source `session.AddFlash(name, value, vars...)`: delegate to the
handle's `AddFlash` and mark `name` written. -/
def session.AddFlash (s : session) (name : String) (value : GoValue)
    (vars : Option String) : session :=
  let t := s.Session name
  let s2 := session.setSess t.2 name (t.1.AddFlash value vars)
  { s2 with written := name :: s2.written }

/-- Source `session.Flashes(name, vars...)`: mark `name` written, then
delegate to the handle's `Flashes`. -/
def session.Flashes (s : session) (name : String) (vars : Option String) :
    List GoValue × session :=
  let s1 := { s with written := name :: s.written }
  let t := s1.Session name
  let r := t.1.Flashes vars
  (r.1, session.setSess t.2 name r.2)

/-- Source `session.Options(name, options)`: copy the five configuration
fields into the loaded session handle's `Options`. -/
def session.Options (s : session) (name : String) (opts : Options) : session :=
  let t := s.Session name
  session.setSess t.2 name
    { t.1 with
      Options := some
        { Path := opts.Path
          Domain := opts.Domain
          MaxAge := opts.MaxAge
          Secure := opts.Secure
          HttpOnly := opts.HttpOnly } }

/-- Source `session.Written(name)`: the dirty flag for `name`
(`written[name]`, `false` when absent). -/
def session.Written (s : session) (name : String) : Bool :=
  s.written.contains name

/-- Source `Sessions` middleware pre-send hook: for every name in `ss`, if
`Written(name)`, call the store's persist (`Save`).  Embedded as the list
of names for which `Save` is invoked. -/
def presendSaves (s : session) : List String :=
  (s.ss.map Prod.fst).filter (fun n => s.Written n)

/-- One handler-visible adapter operation of a request. -/
inductive Op where
  | get (name key : String)
  | set (name key : String) (val : GoValue)
  | del (name key : String)
  | clear (name : String)
  | addFlash (name : String) (val : GoValue) (vars : Option String)
  | flashes (name : String) (vars : Option String)
  | options (name : String) (opts : Options)

/-- The session name an operation refers to. -/
def Op.name : Op → String
  | .get n _ => n
  | .set n _ _ => n
  | .del n _ => n
  | .clear n => n
  | .addFlash n _ _ => n
  | .flashes n _ => n
  | .options n _ => n

/-- Apply one operation to the adapter state (discarding any returned value). -/
def applyOp (s : session) : Op → session
  | .get n k => (s.Get n k).2
  | .set n k v => s.Set n k v
  | .del n k => s.Delete n k
  | .clear n => s.Clear n
  | .addFlash n v vars => s.AddFlash n v vars
  | .flashes n vars => (s.Flashes n vars).2
  | .options n opts => s.Options n opts

/-- One request: a fresh adapter followed by the handler's operations, in
order; the resulting state is what the pre-send hook sees. -/
def run (store : StoreFn) (ops : List Op) : session :=
  ops.foldl applyOp (initSession store)

/-- A store whose every load succeeds with a fresh empty session. -/
def emptyStore : StoreFn := fun _ => ({ Values := [], Options := none }, none)

/-- A store whose every load fails with error `e`, still handing back a
fresh empty session alongside the error (spec: continue with a best-effort
empty/fresh session object). -/
def failStore (e : String) : StoreFn := fun _ => ({ Values := [], Options := none }, some e)

/-- Claim C5's notion of a mutating operation: one of Set, Delete, Clear,
AddFlash, Flashes applied to session name `x` (Clear counting
unconditionally, as the claim states it). -/
def opMutates (op : Op) (x : String) : Prop :=
  match op with
  | .get _ _ => False
  | .set n _ _ => n = x
  | .del n _ => n = x
  | .clear n => n = x
  | .addFlash n _ _ => n = x
  | .flashes n _ => n = x
  | .options _ _ => False

/-- Effective mutation of name `x` by one operation executed in state `s`:
Set, Delete, AddFlash and Flashes on `x` always; Clear on `x` only when the
loaded session has at least one key at that moment (since Clear is a delete
per existing key). -/
def opMutatesEff (s : session) (op : Op) (x : String) : Bool :=
  match op with
  | .get _ _ => false
  | .set n _ _ => x == n
  | .del n _ => x == n
  | .clear n => x == n && !(s.Session n).1.Values.isEmpty
  | .addFlash n _ _ => x == n
  | .flashes n _ => x == n
  | .options _ _ => false

/-- Whether some operation of the sequence, executed at its place in the
request, effectively mutates name `x` (state threaded via `applyOp`). -/
def dirtyAux (s : session) (ops : List Op) (x : String) : Bool :=
  match ops with
  | [] => false
  | op :: rest => opMutatesEff s op x || dirtyAux (applyOp s op) rest x

/-- A store whose every load succeeds with a session holding one key. -/
def oneKeyStore : StoreFn :=
  fun _ => ({ Values := [("k", GoValue.str "v")], Options := none }, none)

/-! ### Association-list lemmas -/

theorem alookup_ainsert_self {α : Type} (m : SMap α) (k : String) (v : α) :
    alookup (ainsert m k v) k = some v := by
  simp [alookup, ainsert]

theorem alookup_filter_ne {α : Type} (rest : SMap α) (k k' : String)
    (h : k ≠ k') : alookup (rest.filter (fun p => p.1 != k)) k' = alookup rest k' := by
  induction rest with
  | nil => rfl
  | cons p rest ih =>
      obtain ⟨pk, pv⟩ := p
      rw [List.filter_cons]
      by_cases hp : pk = k
      · subst hp
        simp only [bne_self_eq_false, Bool.false_eq_true, if_false]
        rw [ih]
        simp [alookup, h]
      · rw [if_pos (bne_iff_ne.mpr hp)]
        by_cases hk' : pk = k'
        · simp [alookup, hk']
        · simp [alookup, hk', ih]

theorem alookup_ainsert_ne {α : Type} (m : SMap α) (k k' : String) (v : α)
    (h : k ≠ k') : alookup (ainsert m k v) k' = alookup m k' := by
  simp only [ainsert, alookup, if_neg h]
  exact alookup_filter_ne m k k' h

theorem alookup_aerase_self {α : Type} (m : SMap α) (k : String) :
    alookup (aerase m k) k = none := by
  induction m with
  | nil => rfl
  | cons p rest ih =>
      obtain ⟨pk, pv⟩ := p
      simp only [aerase] at ih ⊢
      rw [List.filter_cons]
      by_cases hp : pk = k
      · subst hp
        simpa only [bne_self_eq_false, Bool.false_eq_true, if_false] using ih
      · rw [if_pos (bne_iff_ne.mpr hp)]
        simp [alookup, hp, ih]

theorem alookup_aerase_ne {α : Type} (m : SMap α) (k k' : String)
    (h : k ≠ k') : alookup (aerase m k) k' = alookup m k' :=
  alookup_filter_ne m k k' h

theorem mem_map_fst_ainsert {α : Type} (m : SMap α) (k : String) (v : α)
    (x : String) (hx : x ∈ (ainsert m k v).map Prod.fst) :
    x = k ∨ x ∈ m.map Prod.fst := by
  simp only [ainsert, List.map_cons, List.mem_cons] at hx
  rcases hx with h | h
  · exact Or.inl h
  · right
    rcases List.mem_map.mp h with ⟨p, hp, hpx⟩
    exact List.mem_map.mpr ⟨p, List.mem_of_mem_filter hp, hpx⟩


/-! ### Adapter-state lemmas -/

theorem Session_cached (s : session) (n : String) (sess : GSession)
    (h : alookup s.ss n = some sess) : s.Session n = (sess, s) := by
  simp [session.Session, h]

theorem alookup_Session_ss (s : session) (n : String) :
    alookup ((s.Session n).2).ss n = some (s.Session n).1 := by
  cases h : alookup s.ss n with
  | some sess => simp [session.Session, h]
  | none => simp [session.Session, h, alookup_ainsert_self]

theorem Session_written (s : session) (n : String) :
    ((s.Session n).2).written = s.written := by
  cases h : alookup s.ss n <;> simp [session.Session, h]

theorem Session_store (s : session) (n : String) :
    ((s.Session n).2).store = s.store := by
  cases h : alookup s.ss n <;> simp [session.Session, h]

theorem Get_written (s : session) (n k : String) :
    ((s.Get n k).2).written = s.written := by
  simp [session.Get, Session_written]

theorem Set_written (s : session) (n k : String) (v : GoValue) :
    (s.Set n k v).written = n :: s.written := by
  simp [session.Set, session.setSess, Session_written]

theorem Delete_written (s : session) (n k : String) :
    (s.Delete n k).written = n :: s.written := by
  simp [session.Delete, session.setSess, Session_written]

theorem AddFlash_written (s : session) (n : String) (v : GoValue) (vars : Option String) :
    (s.AddFlash n v vars).written = n :: s.written := by
  simp [session.AddFlash, session.setSess, Session_written]

theorem Flashes_written (s : session) (n : String) (vars : Option String) :
    ((s.Flashes n vars).2).written = n :: s.written := by
  simp [session.Flashes, session.setSess, Session_written]

theorem Options_written (s : session) (n : String) (o : Options) :
    (s.Options n o).written = s.written := by
  simp [session.Options, session.setSess, Session_written]

theorem clearFold_written (n : String) (ks : List String) (s : session) :
    (ks.foldl (fun acc k => acc.Delete n k) s).written
      = List.replicate ks.length n ++ s.written := by
  induction ks generalizing s with
  | nil => rfl
  | cons k ks ih =>
      simp [List.foldl_cons, ih, Delete_written, List.replicate_succ']

theorem Clear_written (s : session) (n : String) :
    (s.Clear n).written
      = List.replicate (s.Session n).1.Values.length n ++ s.written := by
  simp [session.Clear, clearFold_written, Session_written]

theorem applyOp_Written (s : session) (op : Op) (x : String) :
    (applyOp s op).Written x = (opMutatesEff s op x || s.Written x) := by
  rw [Bool.eq_iff_iff]
  simp only [Bool.or_eq_true]
  cases op with
  | get n k =>
      simp [applyOp, session.Written, Get_written, opMutatesEff]
  | set n k v =>
      simp [applyOp, session.Written, Set_written, opMutatesEff, List.mem_cons]
  | del n k =>
      simp [applyOp, session.Written, Delete_written, opMutatesEff, List.mem_cons]
  | clear n =>
      simp only [applyOp, session.Written, Clear_written, opMutatesEff]
      cases hv : (s.Session n).1.Values with
      | nil => simp [hv]
      | cons p rest => simp [hv, List.mem_replicate]
  | addFlash n v vars =>
      simp [applyOp, session.Written, AddFlash_written, opMutatesEff, List.mem_cons]
  | flashes n vars =>
      simp [applyOp, session.Written, Flashes_written, opMutatesEff, List.mem_cons]
  | options n o =>
      simp [applyOp, session.Written, Options_written, opMutatesEff]

theorem foldl_Written (ops : List Op) (s : session) (x : String) :
    (ops.foldl applyOp s).Written x = (dirtyAux s ops x || s.Written x) := by
  induction ops generalizing s with
  | nil => simp [dirtyAux]
  | cons op rest ih =>
      simp only [List.foldl_cons, dirtyAux, ih, applyOp_Written, Bool.or_assoc]
      rw [Bool.or_left_comm]

/-! ### Which names get loaded -/

theorem mem_names_Session (s : session) (n x : String)
    (hx : x ∈ ((s.Session n).2).ss.map Prod.fst) :
    x = n ∨ x ∈ s.ss.map Prod.fst := by
  cases h : alookup s.ss n with
  | some sess =>
      rw [Session_cached s n sess h] at hx
      exact Or.inr hx
  | none =>
      simp only [session.Session, h] at hx
      exact mem_map_fst_ainsert _ _ _ _ hx

theorem mem_names_Delete (s : session) (n k x : String)
    (hx : x ∈ (s.Delete n k).ss.map Prod.fst) :
    x = n ∨ x ∈ s.ss.map Prod.fst := by
  simp only [session.Delete, session.setSess] at hx
  rcases mem_map_fst_ainsert _ _ _ _ hx with h | h
  · exact Or.inl h
  · exact mem_names_Session s n x h

theorem mem_names_clearFold (n : String) (ks : List String) (s : session) (x : String)
    (hx : x ∈ (ks.foldl (fun acc k => acc.Delete n k) s).ss.map Prod.fst) :
    x = n ∨ x ∈ s.ss.map Prod.fst := by
  induction ks generalizing s with
  | nil => exact Or.inr hx
  | cons k ks ih =>
      rcases ih _ hx with h | h
      · exact Or.inl h
      · exact mem_names_Delete s n k x h

theorem mem_names_applyOp (s : session) (op : Op) (x : String)
    (hx : x ∈ (applyOp s op).ss.map Prod.fst) :
    x = op.name ∨ x ∈ s.ss.map Prod.fst := by
  cases op with
  | get n k =>
      exact mem_names_Session s n x hx
  | set n k v =>
      simp only [applyOp, session.Set, session.setSess] at hx
      rcases mem_map_fst_ainsert _ _ _ _ hx with h | h
      · exact Or.inl h
      · exact mem_names_Session s n x h
  | del n k =>
      exact mem_names_Delete s n k x hx
  | clear n =>
      simp only [applyOp, session.Clear] at hx
      rcases mem_names_clearFold n _ _ x hx with h | h
      · exact Or.inl h
      · exact mem_names_Session s n x h
  | addFlash n v vars =>
      simp only [applyOp, session.AddFlash, session.setSess] at hx
      rcases mem_map_fst_ainsert _ _ _ _ hx with h | h
      · exact Or.inl h
      · exact mem_names_Session s n x h
  | flashes n vars =>
      simp only [applyOp, session.Flashes, session.setSess] at hx
      rcases mem_map_fst_ainsert _ _ _ _ hx with h | h
      · exact Or.inl h
      · exact mem_names_Session { s with written := n :: s.written } n x h
  | options n o =>
      simp only [applyOp, session.Options, session.setSess] at hx
      rcases mem_map_fst_ainsert _ _ _ _ hx with h | h
      · exact Or.inl h
      · exact mem_names_Session s n x h

theorem mem_names_foldl (ops : List Op) (s : session) (x : String)
    (hx : x ∈ (ops.foldl applyOp s).ss.map Prod.fst) :
    x ∈ ops.map Op.name ∨ x ∈ s.ss.map Prod.fst := by
  induction ops generalizing s with
  | nil => exact Or.inr hx
  | cons op rest ih =>
      rcases ih _ hx with h | h
      · exact Or.inl (List.mem_cons_of_mem _ h)
      · rcases mem_names_applyOp s op x h with h2 | h2
        · exact Or.inl (h2 ▸ List.mem_cons_self _ _)
        · exact Or.inr h2

/-! ### Clear and flash helper lemmas -/

theorem clearFold_ss (n : String) (ks : List String) (s : session) (sess : GSession)
    (hs : alookup s.ss n = some sess) :
    alookup ((ks.foldl (fun acc k => acc.Delete n k) s).ss) n
      = some { sess with Values := ks.foldl aerase sess.Values } := by
  induction ks generalizing s sess with
  | nil => exact hs
  | cons k ks ih =>
      have hD : alookup (s.Delete n k).ss n
          = some { sess with Values := aerase sess.Values k } := by
        simp [session.Delete, session.setSess, Session_cached s n sess hs,
          alookup_ainsert_self]
      simpa [List.foldl_cons] using ih _ _ hD

theorem foldl_aerase_filter {α : Type} (ks : List String) (m : SMap α) :
    ks.foldl aerase m = m.filter (fun p => !(ks.contains p.1)) := by
  induction ks generalizing m with
  | nil => simp
  | cons k ks ih =>
      simp only [List.foldl_cons]
      rw [ih, aerase, List.filter_filter]
      congr 1
      funext p
      by_cases hk : p.1 = k <;> by_cases hks : p.1 ∈ ks <;>
        simp [List.contains_cons, hk, hks, bne]

theorem foldl_aerase_all {α : Type} (ks : List String) (m : SMap α)
    (h : ∀ p ∈ m, p.1 ∈ ks) : ks.foldl aerase m = [] := by
  rw [foldl_aerase_filter]
  refine List.filter_eq_nil_iff.mpr ?_
  intro p hp
  simp [h p hp]

theorem Flashes_fst_of_none (s : session) (n : String) (sess : GSession)
    (hs : alookup s.ss n = some sess)
    (hf : alookup sess.Values flashesKey = none) :
    (s.Flashes n none).1 = [] := by
  simp [session.Flashes, session.Session, hs, GSession.Flashes, hf]

theorem Flashes_of_list (s : session) (n : String) (sess : GSession) (l : List GoValue)
    (hs : alookup s.ss n = some sess)
    (hf : alookup sess.Values flashesKey = some (GoValue.vlist l)) :
    (s.Flashes n none).1 = l ∧
      alookup ((s.Flashes n none).2).ss n
        = some { sess with Values := aerase sess.Values flashesKey } := by
  constructor
  · simp [session.Flashes, session.Session, hs, GSession.Flashes, hf]
  · simp [session.Flashes, session.Session, hs, GSession.Flashes, hf,
      session.setSess, alookup_ainsert_self]

/-! ### The claims -/

/-- C1: the pre-send hook invokes the store's persist exactly for the
session names present in the adapter's loaded set `ss` whose `Written` flag
is true; and a request whose only operation is a single `Get` (no prior
`Set`) causes zero persist calls. -/
theorem C1_presend_persists_exactly_loaded_written :
    (∀ (s : session) (n : String),
        n ∈ presendSaves s ↔ n ∈ s.ss.map Prod.fst ∧ s.Written n = true) ∧
    (∀ (store : StoreFn) (name key : String),
        presendSaves (run store [Op.get name key]) = []) := by
  constructor
  · intro s n
    simp [presendSaves, List.mem_filter]
  · intro store name key
    simp [run, applyOp, session.Get, session.Session, initSession, alookup,
      ainsert, presendSaves, session.Written]

theorem C1_presend_persists_exactly_loaded_written_witness :
    presendSaves (run emptyStore [Op.get "app" "missing"]) = [] :=
  C1_presend_persists_exactly_loaded_written.2 emptyStore "app" "missing"

/-- C2: after `Set(n, key, value)`, a `Get(n, key)` in the same request
returns the value, and `Written(n)` is true. -/
theorem C2_set_then_get_and_written :
    ∀ (s : session) (n key : String) (v : GoValue),
      ((s.Set n key v).Get n key).1 = some v ∧ (s.Set n key v).Written n = true := by
  intro s n key v
  constructor
  · have hss : alookup (s.Set n key v).ss n
        = some { (s.Session n).1 with
                 Values := ainsert (s.Session n).1.Values key v } := by
      simp [session.Set, session.setSess, alookup_ainsert_self]
    simp [session.Get, session.Session, hss, alookup_ainsert_self]
  · simp [session.Written, Set_written]

theorem C2_set_then_get_and_written_witness :
    (((initSession emptyStore).Set "app" "hello" (GoValue.str "world")).Get "app" "hello").1
        = some (GoValue.str "world") ∧
      ((initSession emptyStore).Set "app" "hello" (GoValue.str "world")).Written "app" = true :=
  C2_set_then_get_and_written (initSession emptyStore) "app" "hello" (GoValue.str "world")

/-- C4: a session name never referenced by any adapter operation of the
request does not appear in the persist calls of the pre-send hook. -/
theorem C4_lazy_load_invariant (store : StoreFn) (ops : List Op) (n : String)
    (h : n ∉ ops.map Op.name) : n ∉ presendSaves (run store ops) := by
  intro hmem
  apply h
  have h1 : n ∈ (ops.foldl applyOp (initSession store)).ss.map Prod.fst :=
    List.mem_of_mem_filter hmem
  rcases mem_names_foldl ops (initSession store) n h1 with h2 | h2
  · exact h2
  · simp [initSession] at h2

theorem C4_lazy_load_invariant_witness :
    "other" ∉ [Op.get "app" "k"].map Op.name ∧
      "other" ∉ presendSaves (run emptyStore [Op.get "app" "k"]) :=
  ⟨by decide, C4_lazy_load_invariant emptyStore [Op.get "app" "k"] "other" (by decide)⟩

/-- C6: after `Delete(n, key)`, `Get(n, key)` returns absent and
`Written(n)` is true, whether or not the key existed before. -/
theorem C6_delete_then_absent_and_written :
    ∀ (s : session) (n key : String),
      ((s.Delete n key).Get n key).1 = none ∧ (s.Delete n key).Written n = true := by
  intro s n key
  constructor
  · have hss : alookup (s.Delete n key).ss n
        = some { (s.Session n).1 with
                 Values := aerase (s.Session n).1.Values key } := by
      simp [session.Delete, session.setSess, alookup_ainsert_self]
    simp [session.Get, session.Session, hss, alookup_aerase_self]
  · simp [session.Written, Delete_written]

theorem C6_delete_then_absent_and_written_witness :
    (((initSession oneKeyStore).Delete "app" "k").Get "app" "k").1 = none ∧
      ((initSession oneKeyStore).Delete "app" "k").Written "app" = true :=
  C6_delete_then_absent_and_written (initSession oneKeyStore) "app" "k"

/-- C3: when the store's load returns an error, `Get` still returns a
usable absent/empty result (no crash), and the error is logged via `check`
exactly once per session name per request: repeated access to the same
name logs no further entry, while a second, distinct failing name logs a
second entry. -/
theorem C3_load_error_empty_and_logged_once :
    ∀ (e n k k2 n2 : String),
      ((initSession (failStore e)).Get n k).1 = none ∧
      ((run (failStore e) [Op.get n k]).Get n k2).1 = none ∧
      (run (failStore e) [Op.get n k]).log = [errorFormat e] ∧
      (run (failStore e) [Op.get n k, Op.get n k2]).log = [errorFormat e] ∧
      (n2 ≠ n →
        (run (failStore e) [Op.get n k, Op.get n2 k2]).log
          = [errorFormat e, errorFormat e]) := by
  intro e n k k2 n2
  refine ⟨?_, ?_, ?_, ?_, ?_⟩
  · simp [initSession, session.Get, session.Session, alookup, failStore, check]
  · simp [run, applyOp, initSession, session.Get, session.Session, alookup,
      ainsert, failStore, check]
  · simp [run, applyOp, initSession, session.Get, session.Session, alookup,
      ainsert, failStore, check]
  · simp [run, applyOp, initSession, session.Get, session.Session, alookup,
      ainsert, failStore, check]
  · intro h
    simp [run, applyOp, initSession, session.Get, session.Session, alookup,
      ainsert, failStore, check, h, Ne.symm h]

theorem C3_load_error_empty_and_logged_once_witness :
    ("other" : String) ≠ "app" ∧
      (run (failStore "boom") [Op.get "app" "k", Op.get "other" "k2"]).log
        = [errorFormat "boom", errorFormat "boom"] :=
  ⟨by decide,
    (C3_load_error_empty_and_logged_once "boom" "app" "k" "k2" "other").2.2.2.2 (by decide)⟩

/-- C5 as stated is false on the code: `Clear` is a delete per existing
key, so `Clear` on a session with no keys marks nothing dirty, although
`Clear` is one of the listed mutating operations. -/
theorem C5_counterexample :
    ¬ (∀ (store : StoreFn) (ops : List Op) (x : String),
        (run store ops).Written x = true ↔ ∃ op ∈ ops, opMutates op x) := by
  intro h
  have hw : (run emptyStore [Op.clear "a"]).Written "a" = true :=
    (h emptyStore [Op.clear "a"] "a").2 ⟨Op.clear "a", List.mem_cons_self _ _, rfl⟩
  have hf : (run emptyStore [Op.clear "a"]).Written "a" = false := by rfl
  rw [hf] at hw
  exact Bool.false_ne_true hw

/-- C5 amended: at any point of a request, `Written(n)` is true iff some
operation executed so far effectively mutated `n`: a Set, Delete, AddFlash
or Flashes on `n`, or a Clear on `n` at a moment when the loaded session
held at least one key. -/
theorem C5_amended_dirty_iff_effectively_mutated :
    ∀ (store : StoreFn) (ops : List Op) (x : String),
      (run store ops).Written x = dirtyAux (initSession store) ops x := by
  intro store ops x
  have h := foldl_Written ops (initSession store) x
  simpa [run, initSession, session.Written] using h

theorem C5_amended_dirty_iff_effectively_mutated_witness :
    (run emptyStore [Op.clear "a"]).Written "a"
      = dirtyAux (initSession emptyStore) [Op.clear "a"] "a" :=
  C5_amended_dirty_iff_effectively_mutated emptyStore [Op.clear "a"] "a"

/-- C7: `Clear(n)` on a session holding at least one key removes every key
(zero keys remain) and leaves `Written(n)` true. -/
theorem C7_clear_empties_and_marks_written (s : session) (n : String)
    (h : (s.Session n).1.Values ≠ []) :
    ((s.Clear n).Session n).1.Values = [] ∧ (s.Clear n).Written n = true := by
  constructor
  · have hfold : alookup (s.Clear n).ss n
        = some { (s.Session n).1 with
                 Values := ((s.Session n).1.Values.map Prod.fst).foldl aerase
                   (s.Session n).1.Values } :=
      clearFold_ss n ((s.Session n).1.Values.map Prod.fst) ((s.Session n).2)
        ((s.Session n).1) (alookup_Session_ss s n)
    have hempty : ((s.Session n).1.Values.map Prod.fst).foldl aerase
        (s.Session n).1.Values = [] :=
      foldl_aerase_all _ _ (fun p hp => List.mem_map.mpr ⟨p, hp, rfl⟩)
    rw [hempty] at hfold
    rw [Session_cached _ n _ hfold]
  · cases hv : (s.Session n).1.Values with
    | nil => exact absurd hv h
    | cons p rest =>
        simp [session.Written, Clear_written, hv, List.mem_replicate]

theorem C7_clear_empties_and_marks_written_witness :
    ((initSession oneKeyStore).Session "app").1.Values ≠ [] ∧
      ((((initSession oneKeyStore).Clear "app").Session "app").1.Values = [] ∧
        ((initSession oneKeyStore).Clear "app").Written "app" = true) :=
  ⟨by simp [initSession, session.Session, alookup, oneKeyStore],
    C7_clear_empties_and_marks_written (initSession oneKeyStore) "app"
      (by simp [initSession, session.Session, alookup, oneKeyStore])⟩

/-- C8: starting from a session with no pending flashes, `AddFlash(n, v)`
followed by `Flashes(n)` returns exactly `[v]`, and an immediately
following second `Flashes(n)` returns the empty sequence: each flash is
consumed exactly once. -/
theorem C8_flash_consumed_exactly_once (s : session) (n : String) (v : GoValue)
    (h : alookup (s.Session n).1.Values flashesKey = none) :
    ((s.AddFlash n v none).Flashes n none).1 = [v] ∧
      ((((s.AddFlash n v none).Flashes n none).2).Flashes n none).1 = [] := by
  have hA : alookup (s.AddFlash n v none).ss n
      = some { (s.Session n).1 with
               Values := ainsert (s.Session n).1.Values flashesKey
                 (GoValue.vlist [v]) } := by
    simp [session.AddFlash, session.setSess, alookup_ainsert_self,
      GSession.AddFlash, h]
  have hF := Flashes_of_list (s.AddFlash n v none) n _ [v] hA
    (alookup_ainsert_self _ _ _)
  refine ⟨hF.1, ?_⟩
  exact Flashes_fst_of_none _ n _ hF.2 (alookup_aerase_self _ _)

theorem C8_flash_consumed_exactly_once_witness :
    alookup ((initSession emptyStore).Session "app").1.Values flashesKey = none ∧
      ((((initSession emptyStore).AddFlash "app" (GoValue.str "x") none).Flashes "app" none).1
          = [GoValue.str "x"] ∧
        (((((initSession emptyStore).AddFlash "app" (GoValue.str "x") none).Flashes "app"
              none).2).Flashes "app" none).1 = []) :=
  ⟨rfl, C8_flash_consumed_exactly_once (initSession emptyStore) "app" (GoValue.str "x") rfl⟩

/-- C9: every `Flashes(n)` call marks `n` dirty unconditionally, in
particular also when the flash list is empty and the call returns an empty
sequence. -/
theorem C9_flashes_marks_dirty_unconditionally :
    ∀ (s : session) (n : String) (vars : Option String),
      ((s.Flashes n vars).2).Written n = true := by
  intro s n vars
  simp [session.Written, Flashes_written]

theorem C9_flashes_marks_dirty_unconditionally_witness :
    (((initSession emptyStore).Flashes "app" none).2).Written "app" = true :=
  C9_flashes_marks_dirty_unconditionally (initSession emptyStore) "app" none

/-- C10: `Options(name, opts)` copies all five configuration fields into
the named session's options, leaves the dirty map unchanged, and a request
whose only operation is `Options` triggers no persist call. -/
theorem C10_options_copies_fields_without_dirtying :
    ∀ (s : session) (n : String) (o : Options),
      (((s.Options n o).Session n).1).Options
          = some { Path := o.Path, Domain := o.Domain, MaxAge := o.MaxAge,
                   Secure := o.Secure, HttpOnly := o.HttpOnly } ∧
        (s.Options n o).written = s.written ∧
        ∀ store : StoreFn, presendSaves (run store [Op.options n o]) = [] := by
  intro s n o
  refine ⟨?_, Options_written s n o, ?_⟩
  · have hss : alookup (s.Options n o).ss n
        = some { (s.Session n).1 with
                 Options := some
                   { Path := o.Path, Domain := o.Domain, MaxAge := o.MaxAge,
                     Secure := o.Secure, HttpOnly := o.HttpOnly } } := by
      simp [session.Options, session.setSess, alookup_ainsert_self]
    rw [Session_cached _ n _ hss]
  · intro store
    simp [run, applyOp, session.Options, session.setSess, session.Session,
      initSession, alookup, ainsert, presendSaves, session.Written]

theorem C10_options_copies_fields_without_dirtying_witness :
    ((((initSession emptyStore).Options "app" ⟨"/", "d", 7, true, true⟩).Session "app").1).Options
        = some { Path := "/", Domain := "d", MaxAge := 7, Secure := true, HttpOnly := true } ∧
      ((initSession emptyStore).Options "app" ⟨"/", "d", 7, true, true⟩).written
          = (initSession emptyStore).written ∧
      ∀ store : StoreFn,
        presendSaves (run store [Op.options "app" ⟨"/", "d", 7, true, true⟩]) = [] :=
  C10_options_copies_fields_without_dirtying (initSession emptyStore) "app"
    ⟨"/", "d", 7, true, true⟩
